import Mathlib

/-!
Shallow embedding of the word2vec / bias-analysis program (`src/code.py`)
of the repository `mathematiguy/comp-599-assignment-2`, together with
theorems settling the specification claims.

Modelling conventions:
* token indices are `Nat`; embedding vectors are `List ℚ` (idealizing the
  program's floating point arithmetic as exact rational arithmetic);
* an embedding matrix / weight tensor is a `List (List ℚ)` of rows;
* `np.linalg.norm` produces irrational values, so functions that consume a
  norm are parametric in a `norm : List ℚ → ℚ` argument; rankings by cosine
  similarity are decided by an exact sign-and-square encoding that is proved
  equivalent to the real-valued cosine order;
* Python list slicing (including negative bounds) is modelled by `pySlice`;
* a `KeyError` raised by a dict lookup is modelled by `Option`/`Except`.
-/

namespace W2V

/-- Dot product of two rational vectors, `np.dot` (truncating at the
shorter length; the program only ever applies it at equal lengths). -/
def dotQ (a b : List ℚ) : ℚ := (List.zipWith (· * ·) a b).sum

/-- Elementwise sum of two vectors (`+` on equal-shape arrays). -/
def vecAdd (a b : List ℚ) : List ℚ := List.zipWith (· + ·) a b

/-- Elementwise difference of two vectors (`-` on equal-shape arrays). -/
def vecSub (a b : List ℚ) : List ℚ := List.zipWith (· - ·) a b

/-- Squared L2 norm: `np.linalg.norm(v) ** 2 = np.dot(v, v)`. -/
def sqNorm (v : List ℚ) : ℚ := dotQ v v

/-- Clamp a (possibly negative) Python slice bound to an effective
position in a list of length `L`: a negative bound counts from the end
(clamped below at 0), a non-negative bound is clamped above at `L`. -/
def pyBound (L : Nat) (i : Int) : Nat :=
  if i < 0 then ((L : Int) + i).toNat else min i.toNat L

/-- Python slice `l[a:b]` with step 1, supporting negative bounds. -/
def pySlice {α : Type} (l : List α) (a b : Int) : List α :=
  (l.drop (pyBound l.length a)).take (pyBound l.length b - pyBound l.length a)

/-- Embedding of `build_current_surrounding_pairs` (src/code.py:341-358):
`current_indices = indices[window_size:-window_size]`, and
`surrounding_indices` is the per-position list
`indices[i-window_size:i] + indices[i+1:i+window_size+1]` for every `i`,
then sliced by `[window_size:-window_size]`. -/
def build_current_surrounding_pairs (indices : List Nat) (window_size : Nat) :
    List (List Nat) × List Nat :=
  let current_indices := pySlice indices (window_size : Int) (-(window_size : Int))
  let surrounding_all := (List.range indices.length).map (fun (i : Nat) =>
    pySlice indices ((i : Int) - (window_size : Int)) (i : Int) ++
      pySlice indices ((i : Int) + 1) ((i : Int) + (window_size : Int) + 1))
  let surrounding_indices :=
    pySlice surrounding_all (window_size : Int) (-(window_size : Int))
  (surrounding_indices, current_indices)

/-- Embedding of `expand_surrounding_words` (src/code.py:361-375): on an
empty window list return `([], [])`; otherwise flatten the windows, and
repeat each centre once per slot of the (first window's) width. -/
def expand_surrounding_words (ix_surroundings : List (List Nat))
    (ix_current : List Nat) : List Nat × List Nat :=
  if ix_surroundings.length = 0 then ([], [])
  else
    let window_size := (ix_surroundings.headD []).length
    (ix_surroundings.flatten,
     (ix_current.map (fun x => List.replicate window_size x)).flatten)

example :
    build_current_surrounding_pairs [10, 11, 12, 13, 14] 1 =
      ([[10, 12], [11, 13], [12, 14]], [11, 12, 13]) := by decide

example :
    build_current_surrounding_pairs [10, 11, 12, 13] 2 = ([], []) := by decide

example :
    expand_surrounding_words [[10, 12], [11, 13]] [11, 12] =
      ([10, 12, 11, 13], [11, 11, 12, 12]) := by decide

theorem pyBound_le (L : Nat) (i : Int) (a : Nat) (hi : i = a) (h : a ≤ L) :
    pyBound L i = a := by
  subst hi
  unfold pyBound
  rw [if_neg (by omega)]
  simp
  omega

theorem pyBound_ofNat (L a : Nat) : pyBound L (a : Int) = min a L := by
  unfold pyBound
  rw [if_neg (by omega)]
  simp

theorem pyBound_neg (L w : Nat) (hw : 1 ≤ w) :
    pyBound L (-(w : Int)) = L - w := by
  unfold pyBound
  rw [if_pos (by omega)]
  omega

theorem pySlice_nat {α : Type} (l : List α) (a b : Int) (a' b' : Nat)
    (ha : a = a') (hb : b = b') (ha' : a' ≤ l.length) (hb' : b' ≤ l.length) :
    pySlice l a b = (l.drop a').take (b' - a') := by
  unfold pySlice
  rw [pyBound_le l.length a a' ha ha', pyBound_le l.length b b' hb hb']

theorem pySlice_window {α : Type} (l : List α) (w : Nat) (hw : 1 ≤ w) :
    pySlice l (w : Int) (-(w : Int)) = (l.drop w).take (l.length - 2 * w) := by
  unfold pySlice
  rw [pyBound_neg _ _ hw, pyBound_ofNat]
  rcases le_or_lt w l.length with h | h
  · rw [min_eq_left h]
    congr 1
    omega
  · rw [min_eq_right h.le, List.drop_length, List.drop_eq_nil_of_le h.le]
    simp

/-- C3: for every token-index sequence and `window_size ≥ 1`,
`build_current_surrounding_pairs` yields exactly `L - 2*window_size`
(context, center) pairs (so zero pairs when `L ≤ 2*window_size`), every
context window has width exactly `2*window_size`, and the `j`-th pair is
the `window_size` tokens before and after position `j + window_size` of
the sequence (excluding the centre token itself), with the centre the
token at that position. -/
theorem build_pairs_spec (indices : List Nat) (w : Nat) (hw : 1 ≤ w) :
    (build_current_surrounding_pairs indices w).1.length =
        indices.length - 2 * w ∧
    (build_current_surrounding_pairs indices w).2.length =
        indices.length - 2 * w ∧
    (indices.length ≤ 2 * w → build_current_surrounding_pairs indices w = ([], [])) ∧
    (∀ win ∈ (build_current_surrounding_pairs indices w).1, win.length = 2 * w) ∧
    (∀ j, j < indices.length - 2 * w →
      (build_current_surrounding_pairs indices w).1.getD j [] =
        (indices.drop j).take w ++ (indices.drop (j + w + 1)).take w ∧
      (build_current_surrounding_pairs indices w).2.getD j 0 =
        indices.getD (j + w) 0) := by
  simp only [build_current_surrounding_pairs]
  set L := indices.length with hL
  set A := (List.range L).map (fun (i : Nat) =>
    pySlice indices ((i : Int) - (w : Int)) (i : Int) ++
      pySlice indices ((i : Int) + 1) ((i : Int) + (w : Int) + 1)) with hA
  have hAlen : A.length = L := by
    rw [hA]
    simp
  have hsurr : pySlice A (w : Int) (-(w : Int)) = (A.drop w).take (L - 2 * w) := by
    rw [pySlice_window A w hw, hAlen]
  have hcur : pySlice indices (w : Int) (-(w : Int)) =
      (indices.drop w).take (L - 2 * w) := by
    rw [pySlice_window indices w hw, ← hL]
  have hwin : ∀ j, j < L - 2 * w →
      ((A.drop w).take (L - 2 * w)).getD j [] =
      (indices.drop j).take w ++ (indices.drop (j + w + 1)).take w := by
    intro j hj
    have h1 : j < ((A.drop w).take (L - 2 * w)).length := by
      rw [List.length_take, List.length_drop, hAlen]
      omega
    rw [List.getD_eq_getElem _ _ h1, List.getElem_take, List.getElem_drop]
    simp only [hA, List.getElem_map, List.getElem_range]
    have e1 : pySlice indices (((w + j : Nat) : Int) - (w : Int))
        ((w + j : Nat) : Int) =
        (indices.drop j).take ((w + j) - j) :=
      pySlice_nat indices _ _ j (w + j) (by push_cast; omega) (by push_cast; omega)
        (by omega) (by omega)
    have e2 : pySlice indices (((w + j : Nat) : Int) + 1)
        (((w + j : Nat) : Int) + (w : Int) + 1) =
        (indices.drop (w + j + 1)).take ((w + j + w + 1) - (w + j + 1)) :=
      pySlice_nat indices _ _ (w + j + 1) (w + j + w + 1) (by push_cast; omega)
        (by push_cast; omega) (by omega) (by omega)
    rw [e1, e2]
    have t1 : (w + j) - j = w := by omega
    have t2 : (w + j + w + 1) - (w + j + 1) = w := by omega
    have t3 : w + j + 1 = j + w + 1 := by omega
    rw [t1, t2, t3]
  refine ⟨?_, ?_, ?_, ?_, ?_⟩
  · rw [hsurr, List.length_take, List.length_drop, hAlen]
    omega
  · rw [hcur, List.length_take, List.length_drop, ← hL]
    omega
  · intro hle
    rw [hsurr, hcur]
    have h0 : L - 2 * w = 0 := by omega
    rw [h0]
    simp
  · intro win hmem
    rw [hsurr] at hmem
    rcases List.mem_iff_getElem.mp hmem with ⟨j, hjlt, hjeq⟩
    have hj : j < L - 2 * w := by
      rw [List.length_take, List.length_drop, hAlen] at hjlt
      omega
    have hform := hwin j hj
    rw [List.getD_eq_getElem _ _ (by rw [List.length_take, List.length_drop, hAlen]; omega),
      hjeq] at hform
    simp only [hform, List.length_append, List.length_take, List.length_drop, ← hL]
    omega
  · intro j hj
    refine ⟨by rw [hsurr]; exact hwin j hj, ?_⟩
    rw [hcur]
    have h1 : j < ((indices.drop w).take (L - 2 * w)).length := by
      rw [List.length_take, List.length_drop, ← hL]
      omega
    rw [List.getD_eq_getElem _ _ h1, List.getElem_take, List.getElem_drop,
      List.getD_eq_getElem _ _ (by omega : j + w < indices.length)]
    congr 1
    omega

/-- C3 witness at a concrete input. -/
theorem build_pairs_spec_witness :
    1 ≤ 1 ∧
    ((build_current_surrounding_pairs [10, 11, 12, 13, 14] 1).1.length =
        ([10, 11, 12, 13, 14] : List Nat).length - 2 * 1 ∧
    (build_current_surrounding_pairs [10, 11, 12, 13, 14] 1).2.length =
        ([10, 11, 12, 13, 14] : List Nat).length - 2 * 1 ∧
    (([10, 11, 12, 13, 14] : List Nat).length ≤ 2 * 1 →
      build_current_surrounding_pairs [10, 11, 12, 13, 14] 1 = ([], [])) ∧
    (∀ win ∈ (build_current_surrounding_pairs [10, 11, 12, 13, 14] 1).1,
      win.length = 2 * 1) ∧
    (∀ j, j < ([10, 11, 12, 13, 14] : List Nat).length - 2 * 1 →
      (build_current_surrounding_pairs [10, 11, 12, 13, 14] 1).1.getD j [] =
        (([10, 11, 12, 13, 14] : List Nat).drop j).take 1 ++
          (([10, 11, 12, 13, 14] : List Nat).drop (j + 1 + 1)).take 1 ∧
      (build_current_surrounding_pairs [10, 11, 12, 13, 14] 1).2.getD j 0 =
        ([10, 11, 12, 13, 14] : List Nat).getD (j + 1) 0)) :=
  ⟨le_refl 1, build_pairs_spec [10, 11, 12, 13, 14] 1 (le_refl 1)⟩

theorem list_zip_replicate {α β : Type} :
    ∀ (w : List α) (k : Nat) (c : β), w.length = k →
      w.zip (List.replicate k c) = w.map (fun t => (t, c))
  | [], _, _, h => by
    subst h
    rfl
  | t :: w, k, c, h => by
    subst h
    simp only [List.length_cons, List.replicate_succ, List.zip_cons_cons,
      List.map_cons]
    rw [list_zip_replicate w w.length c rfl]

theorem expand_zip : ∀ (ws : List (List Nat)) (cs : List Nat) (k : Nat),
    (∀ win ∈ ws, win.length = k) → cs.length = ws.length →
    ws.flatten.zip ((cs.map (fun x => List.replicate k x)).flatten) =
      (ws.zip cs).flatMap (fun p => p.1.map (fun t => (t, p.2)))
  | [], cs, k, _, _ => by simp
  | w :: ws, [], k, _, hlen => by simp at hlen
  | w :: ws, c :: cs, k, hw, hlen => by
    simp only [List.flatten_cons, List.map_cons, List.zip_cons_cons,
      List.flatMap_cons]
    rw [List.zip_append (by rw [hw w (by simp), List.length_replicate])]
    rw [list_zip_replicate w k c (hw w (by simp))]
    rw [expand_zip ws cs k (fun x hx => hw x (by simp [hx])) (by simpa using hlen)]

/-- C4: on a non-empty list of equal-width windows with matching centres,
`expand_surrounding_words` flattens each (window, centre) pair into
width-many (single context token, centre) pairs: the paired output is the
in-order concatenation, window by window, of each window's tokens paired
with that window's centre; the output lengths are width times the number
of windows; and the empty window list yields `([], [])`. -/
theorem expand_surrounding_spec (ws : List (List Nat)) (cs : List Nat) (k : Nat)
    (hw : ∀ win ∈ ws, win.length = k) (hlen : cs.length = ws.length) :
    expand_surrounding_words [] cs = ([], []) ∧
    (expand_surrounding_words ws cs).1.length = k * ws.length ∧
    (expand_surrounding_words ws cs).2.length = k * ws.length ∧
    (expand_surrounding_words ws cs).1.zip (expand_surrounding_words ws cs).2 =
      (ws.zip cs).flatMap (fun p => p.1.map (fun t => (t, p.2))) := by
  have hempty : expand_surrounding_words [] cs = ([], []) := rfl
  rcases ws with _ | ⟨w0, rest⟩
  · have hcs : cs = [] := List.length_eq_zero.mp (by simpa using hlen)
    subst hcs
    exact ⟨hempty, by simp [expand_surrounding_words],
      by simp [expand_surrounding_words], by simp [expand_surrounding_words]⟩
  · have hne : (w0 :: rest).length ≠ 0 := by simp
    have hk : (List.headD (w0 :: rest) []).length = k := hw w0 (by simp)
    have hfst : (expand_surrounding_words (w0 :: rest) cs).1 =
        (w0 :: rest).flatten := by
      simp only [expand_surrounding_words, if_neg hne]
    have hsnd : (expand_surrounding_words (w0 :: rest) cs).2 =
        (cs.map (fun x => List.replicate k x)).flatten := by
      simp only [expand_surrounding_words, if_neg hne, hk]
    refine ⟨hempty, ?_, ?_, ?_⟩
    · rw [hfst, List.length_flatten]
      have hrep : (w0 :: rest).map List.length =
          List.replicate (w0 :: rest).length k := by
        rw [List.eq_replicate_iff]
        refine ⟨by simp, ?_⟩
        intro b hb
        rcases List.mem_map.mp hb with ⟨win, hwin, rfl⟩
        exact hw win hwin
      rw [hrep, List.sum_replicate, smul_eq_mul, Nat.mul_comm]
    · rw [hsnd, List.length_flatten, List.map_map]
      have hrep : (cs.map (List.length ∘ fun x => List.replicate k x)) =
          List.replicate cs.length k := by
        rw [List.eq_replicate_iff]
        exact ⟨by simp, by intro b hb; rcases List.mem_map.mp hb with ⟨c, _, rfl⟩; simp⟩
      rw [hrep, List.sum_replicate, smul_eq_mul, Nat.mul_comm, hlen]
    · rw [hfst, hsnd]
      exact expand_zip (w0 :: rest) cs k hw hlen

/-- C4 witness at a concrete input. -/
theorem expand_surrounding_spec_witness :
    ((∀ win ∈ [[10, 12], [11, 13]], List.length win = 2) ∧
      ([11, 12] : List Nat).length = ([[10, 12], [11, 13]] : List (List Nat)).length) ∧
    (expand_surrounding_words [] [11, 12] = ([], []) ∧
    (expand_surrounding_words [[10, 12], [11, 13]] [11, 12]).1.length =
        2 * ([[10, 12], [11, 13]] : List (List Nat)).length ∧
    (expand_surrounding_words [[10, 12], [11, 13]] [11, 12]).2.length =
        2 * ([[10, 12], [11, 13]] : List (List Nat)).length ∧
    (expand_surrounding_words [[10, 12], [11, 13]] [11, 12]).1.zip
        (expand_surrounding_words [[10, 12], [11, 13]] [11, 12]).2 =
      (([[10, 12], [11, 13]] : List (List Nat)).zip [11, 12]).flatMap
        (fun p => p.1.map (fun t => (t, p.2)))) :=
  ⟨⟨by decide, by decide⟩,
    expand_surrounding_spec [[10, 12], [11, 13]] [11, 12] 2 (by decide) (by decide)⟩

/-- Embedding lookup `self.emb(i)` for a single index: row `i` of the
shared weight matrix (`nn.Embedding` indexes rows of its weight). -/
def embLookup (W : List (List ℚ)) (i : Nat) : List ℚ := W.getD i []

/-- Bias-free projection `self.proj(v)`: `nn.Linear(embed_dim, num_words,
bias=False)` with weight `W` maps `v` to the vector of dot products of
each row of `W` with `v`. -/
def linearNoBias (W : List (List ℚ)) (v : List ℚ) : List ℚ :=
  W.map (fun row => dotQ row v)

/-- Tensor sum along the context axis, `emb_x.sum(axis=1)` for one sample:
the elementwise sum of the context-embedding rows (all of width
`embed_dim`; the program's samples always carry a non-empty context). -/
def sumRows : List (List ℚ) → List ℚ
  | [] => []
  | [v] => v
  | v :: rest => vecAdd v (sumRows rest)

/-- `SkipGram.forward` (src/code.py:462-465): look up the embedding of
each single context index of the batch and project it to logits. -/
def SkipGram.forward (W : List (List ℚ)) (x : List Nat) : List (List ℚ) :=
  x.map (fun i => linearNoBias W (embLookup W i))

/-- `CBOW.forward` (src/code.py:489-492): look up the embeddings of all
context positions of each sample, sum them along the context axis, then
project the summed vector to logits. -/
def CBOW.forward (W : List (List ℚ)) (x : List (List Nat)) : List (List ℚ) :=
  x.map (fun win => linearNoBias W (sumRows (win.map (embLookup W))))

theorem dotQ_nil_right (r : List ℚ) : dotQ r [] = 0 := by
  simp [dotQ]

theorem dotQ_vecAdd : ∀ (r u v : List ℚ), u.length = v.length →
    dotQ r (vecAdd u v) = dotQ r u + dotQ r v
  | [], u, v, _ => by simp [dotQ]
  | a :: r, [], v, h => by
    have : v = [] := List.length_eq_zero.mp h.symm
    subst this
    simp [dotQ, vecAdd]
  | a :: r, b :: u, [], h => by simp at h
  | a :: r, b :: u, c :: v, h => by
    simp only [vecAdd, List.zipWith_cons_cons, dotQ, List.sum_cons] at *
    have ih := dotQ_vecAdd r u v (by simpa using h)
    simp only [dotQ, vecAdd] at ih
    rw [ih]
    ring

theorem sumRows_length (d : Nat) : ∀ (rows : List (List ℚ)), rows ≠ [] →
    (∀ v ∈ rows, v.length = d) → (sumRows rows).length = d
  | [], h, _ => absurd rfl h
  | [v], _, hd => by simpa [sumRows] using hd v (by simp)
  | v :: w :: rest, _, hd => by
    have ih := sumRows_length d (w :: rest) (by simp)
      (fun u hu => hd u (List.mem_cons_of_mem v hu))
    have hv : v.length = d := hd v (by simp)
    simp only [sumRows, vecAdd, List.length_zipWith, hv, ih, min_self]

theorem dotQ_sumRows (r : List ℚ) (d : Nat) : ∀ (rows : List (List ℚ)),
    (∀ v ∈ rows, v.length = d) →
    dotQ r (sumRows rows) = (rows.map (fun v => dotQ r v)).sum
  | [], _ => by simp [sumRows, dotQ]
  | [v], _ => by simp [sumRows]
  | v :: w :: rest, hd => by
    have hlen : v.length = (sumRows (w :: rest)).length := by
      rw [hd v (by simp), sumRows_length d (w :: rest) (by simp)
        (fun u hu => hd u (List.mem_cons_of_mem v hu))]
    calc dotQ r (sumRows (v :: w :: rest))
        = dotQ r (vecAdd v (sumRows (w :: rest))) := rfl
      _ = dotQ r v + dotQ r (sumRows (w :: rest)) := dotQ_vecAdd r _ _ hlen
      _ = dotQ r v + ((w :: rest).map (fun v => dotQ r v)).sum := by
          rw [dotQ_sumRows r d (w :: rest)
            (fun u hu => hd u (List.mem_cons_of_mem v hu))]
      _ = ((v :: w :: rest).map (fun v => dotQ r v)).sum := by simp

/-- C5: `SkipGram.forward` maps a batch of single context indices to one
vocabulary-sized logits row per index, whose entry `j` is the dot product
of weight row `j` with the looked-up embedding of that index; `CBOW.forward`
maps each fixed-width context window to a vocabulary-sized logits row whose
entry `j` is the sum, over the window's context positions, of the dot
product of weight row `j` with that position's embedding — the projection
applied to the context-axis sum of the embeddings. -/
theorem forward_spec (W : List (List ℚ)) (d : Nat) (x : List Nat)
    (xs : List (List Nat))
    (hW : ∀ row ∈ W, row.length = d)
    (hx : ∀ i ∈ x, i < W.length)
    (hxs : ∀ win ∈ xs, ∀ i ∈ win, i < W.length) :
    (SkipGram.forward W x).length = x.length ∧
    (∀ v ∈ SkipGram.forward W x, v.length = W.length) ∧
    (∀ b, b < x.length → ∀ j, j < W.length →
      ((SkipGram.forward W x).getD b []).getD j 0 =
        dotQ (W.getD j []) (W.getD (x.getD b 0) [])) ∧
    (CBOW.forward W xs).length = xs.length ∧
    (∀ v ∈ CBOW.forward W xs, v.length = W.length) ∧
    (∀ b, b < xs.length → ∀ j, j < W.length →
      ((CBOW.forward W xs).getD b []).getD j 0 =
        ((xs.getD b []).map (fun i => dotQ (W.getD j []) (W.getD i []))).sum) := by
  refine ⟨by simp [SkipGram.forward], ?_, ?_, by simp [CBOW.forward], ?_, ?_⟩
  · intro v hv
    rcases List.mem_map.mp hv with ⟨i, _, rfl⟩
    simp [linearNoBias]
  · intro b hb j hj
    have hb' : b < (SkipGram.forward W x).length := by
      simpa [SkipGram.forward] using hb
    rw [List.getD_eq_getElem _ _ hb']
    simp only [SkipGram.forward, List.getElem_map]
    have hj' : j < (linearNoBias W (embLookup W (x[b]))).length := by
      simpa [linearNoBias] using hj
    rw [List.getD_eq_getElem _ _ hj']
    simp only [linearNoBias, List.getElem_map, embLookup]
    rw [List.getD_eq_getElem _ _ hj, List.getD_eq_getElem _ _ hb]
  · intro v hv
    rcases List.mem_map.mp hv with ⟨win, _, rfl⟩
    simp [linearNoBias]
  · intro b hb j hj
    have hb' : b < (CBOW.forward W xs).length := by
      simpa [CBOW.forward] using hb
    rw [List.getD_eq_getElem _ _ hb']
    simp only [CBOW.forward, List.getElem_map]
    have hj' : j <
        (linearNoBias W (sumRows ((xs[b]).map (embLookup W)))).length := by
      simpa [linearNoBias] using hj
    rw [List.getD_eq_getElem _ _ hj']
    simp only [linearNoBias, List.getElem_map]
    have hrows : ∀ v ∈ (xs[b]).map (embLookup W), v.length = d := by
      intro v hv
      rcases List.mem_map.mp hv with ⟨i, hi, rfl⟩
      have hir : i < W.length := hxs (xs[b]) (List.getElem_mem hb) i hi
      have : embLookup W i = W[i] := List.getD_eq_getElem _ _ hir
      rw [this]
      exact hW _ (List.getElem_mem hir)
    rw [dotQ_sumRows (W[j]) d _ hrows, List.map_map]
    rw [List.getD_eq_getElem _ _ hj, List.getD_eq_getElem _ _ hb]
    refine congrArg List.sum (List.map_congr_left ?_)
    intro i hi
    simp [Function.comp, embLookup, List.getD]

/-- C5 witness at a concrete weight matrix and batches. -/
theorem forward_spec_witness :
    ((∀ row ∈ [[(1 : ℚ), 2], [3, 4], [5, 6]], List.length row = 2) ∧
      (∀ i ∈ [0, 2], i < ([[(1 : ℚ), 2], [3, 4], [5, 6]] : List (List ℚ)).length) ∧
      (∀ win ∈ [[0, 1], [2, 0]], ∀ i ∈ win,
        i < ([[(1 : ℚ), 2], [3, 4], [5, 6]] : List (List ℚ)).length)) ∧
    ((SkipGram.forward [[(1 : ℚ), 2], [3, 4], [5, 6]] [0, 2]).length =
        ([0, 2] : List Nat).length ∧
    (∀ v ∈ SkipGram.forward [[(1 : ℚ), 2], [3, 4], [5, 6]] [0, 2],
      v.length = ([[(1 : ℚ), 2], [3, 4], [5, 6]] : List (List ℚ)).length) ∧
    (∀ b, b < ([0, 2] : List Nat).length →
      ∀ j, j < ([[(1 : ℚ), 2], [3, 4], [5, 6]] : List (List ℚ)).length →
      ((SkipGram.forward [[(1 : ℚ), 2], [3, 4], [5, 6]] [0, 2]).getD b []).getD j 0 =
        dotQ (([[(1 : ℚ), 2], [3, 4], [5, 6]] : List (List ℚ)).getD j [])
          (([[(1 : ℚ), 2], [3, 4], [5, 6]] : List (List ℚ)).getD
            (([0, 2] : List Nat).getD b 0) [])) ∧
    (CBOW.forward [[(1 : ℚ), 2], [3, 4], [5, 6]] [[0, 1], [2, 0]]).length =
        ([[0, 1], [2, 0]] : List (List Nat)).length ∧
    (∀ v ∈ CBOW.forward [[(1 : ℚ), 2], [3, 4], [5, 6]] [[0, 1], [2, 0]],
      v.length = ([[(1 : ℚ), 2], [3, 4], [5, 6]] : List (List ℚ)).length) ∧
    (∀ b, b < ([[0, 1], [2, 0]] : List (List Nat)).length →
      ∀ j, j < ([[(1 : ℚ), 2], [3, 4], [5, 6]] : List (List ℚ)).length →
      ((CBOW.forward [[(1 : ℚ), 2], [3, 4], [5, 6]] [[0, 1], [2, 0]]).getD b []).getD j 0 =
        ((([[0, 1], [2, 0]] : List (List Nat)).getD b []).map
          (fun i => dotQ (([[(1 : ℚ), 2], [3, 4], [5, 6]] : List (List ℚ)).getD j [])
            (([[(1 : ℚ), 2], [3, 4], [5, 6]] : List (List ℚ)).getD i []))).sum)) :=
  ⟨⟨by decide, by decide, by decide⟩,
    forward_spec [[(1 : ℚ), 2], [3, 4], [5, 6]] 2 [0, 2] [[0, 1], [2, 0]]
      (by decide) (by decide) (by decide)⟩

theorem vecAdd_zero_right : ∀ (v : List ℚ) (n : Nat), v.length = n →
    vecAdd v (List.replicate n 0) = v
  | [], n, h => by simp [vecAdd]
  | a :: v, n, h => by
    subst h
    simp only [List.length_cons, List.replicate_succ, vecAdd,
      List.zipWith_cons_cons, add_zero]
    have ih := vecAdd_zero_right v v.length rfl
    simp only [vecAdd] at ih
    rw [ih]

theorem linear_vecAdd (u v : List ℚ) (h : u.length = v.length) :
    ∀ W : List (List ℚ), linearNoBias W (vecAdd u v) =
      vecAdd (linearNoBias W u) (linearNoBias W v)
  | [] => rfl
  | r :: W => by
    have ih := linear_vecAdd u v h W
    have hhd := dotQ_vecAdd r u v h
    simp only [linearNoBias, List.map_cons, vecAdd, List.zipWith_cons_cons] at ih hhd ⊢
    rw [hhd, ih]

theorem linear_sumRows (W : List (List ℚ)) (d : Nat)
    (hW : ∀ row ∈ W, row.length = d) :
    ∀ rows : List (List ℚ), (∀ v ∈ rows, v.length = d) →
    linearNoBias W (sumRows rows) =
      rows.foldr (fun v acc => vecAdd (linearNoBias W v) acc)
        (List.replicate W.length 0)
  | [], _ => by
    simp only [sumRows, List.foldr_nil, linearNoBias]
    rw [show (fun row : List ℚ => dotQ row []) = (fun _ : List ℚ => (0 : ℚ)) from
      funext (fun r => dotQ_nil_right r)]
    simp
  | [v], hd => by
    simp only [sumRows, List.foldr_cons, List.foldr_nil]
    rw [vecAdd_zero_right (linearNoBias W v) W.length (by simp [linearNoBias])]
  | v :: w :: rest, hd => by
    rw [show sumRows (v :: w :: rest) = vecAdd v (sumRows (w :: rest)) from rfl]
    rw [linear_vecAdd v (sumRows (w :: rest))
      (by rw [hd v (by simp), sumRows_length d (w :: rest) (by simp)
        (fun u hu => hd u (List.mem_cons_of_mem v hu))]) W]
    rw [linear_sumRows W d hW (w :: rest)
      (fun u hu => hd u (List.mem_cons_of_mem v hu))]
    simp only [List.foldr_cons]

theorem foldr_range_getD {β : Type} : ∀ (win : List Nat) (g : Nat → β → β)
    (init : β),
    (List.range win.length).foldr (fun p acc => g (win.getD p 0) acc) init =
      win.foldr (fun i acc => g i acc) init
  | [], g, init => by simp
  | w :: rest, g, init => by
    rw [List.length_cons, List.range_succ_eq_map, List.foldr_cons,
      List.foldr_map]
    simp only [List.getD_cons_zero, List.getD_cons_succ]
    rw [foldr_range_getD rest g init]
    rfl

/-- C10: because the shared projection is linear and bias-free, every CBOW
logits row equals the elementwise vector sum, over the window's context
positions `p`, of the SkipGram logits computed with the same shared weight
matrix on the batch of single context indices found at position `p`. -/
theorem cbow_eq_sum_skipgram (W : List (List ℚ)) (d k : Nat)
    (xs : List (List Nat))
    (hW : ∀ row ∈ W, row.length = d)
    (hxs : ∀ win ∈ xs, ∀ i ∈ win, i < W.length)
    (hwidth : ∀ win ∈ xs, win.length = k) :
    ∀ b, b < xs.length →
      (CBOW.forward W xs).getD b [] =
        (List.range k).foldr (fun p acc =>
          vecAdd ((SkipGram.forward W
            (xs.map (fun win => win.getD p 0))).getD b []) acc)
          (List.replicate W.length 0) := by
  intro b hb
  have hb' : b < (CBOW.forward W xs).length := by simpa [CBOW.forward] using hb
  rw [List.getD_eq_getElem _ _ hb']
  simp only [CBOW.forward, List.getElem_map]
  have hrows : ∀ v ∈ (xs[b]).map (embLookup W), v.length = d := by
    intro v hv
    rcases List.mem_map.mp hv with ⟨i, hi, rfl⟩
    have hir : i < W.length := hxs (xs[b]) (List.getElem_mem hb) i hi
    have hrow : embLookup W i = W[i] := List.getD_eq_getElem _ _ hir
    rw [hrow]
    exact hW _ (List.getElem_mem hir)
  rw [linear_sumRows W d hW ((xs[b]).map (embLookup W)) hrows]
  have hsk : ∀ p : Nat,
      (SkipGram.forward W (xs.map (fun win => win.getD p 0))).getD b [] =
        linearNoBias W (embLookup W ((xs[b]).getD p 0)) := by
    intro p
    have hb2 : b < (SkipGram.forward W (xs.map (fun win => win.getD p 0))).length := by
      simpa [SkipGram.forward] using hb
    rw [List.getD_eq_getElem _ _ hb2]
    simp [SkipGram.forward]
  simp only [hsk]
  rw [← hwidth (xs[b]) (List.getElem_mem hb)]
  rw [foldr_range_getD (xs[b])
    (fun i acc => vecAdd (linearNoBias W (embLookup W i)) acc)
    (List.replicate W.length 0)]
  rw [List.foldr_map]

/-- C10 witness at a concrete weight matrix and batch. -/
theorem cbow_eq_sum_skipgram_witness :
    ((∀ row ∈ [[(1 : ℚ), 2], [3, 4], [5, 6]], List.length row = 2) ∧
      (∀ win ∈ [[0, 1], [2, 0]], ∀ i ∈ win,
        i < ([[(1 : ℚ), 2], [3, 4], [5, 6]] : List (List ℚ)).length) ∧
      (∀ win ∈ [[0, 1], [2, 0]], List.length win = 2) ∧
      0 < ([[0, 1], [2, 0]] : List (List Nat)).length) ∧
    (CBOW.forward [[(1 : ℚ), 2], [3, 4], [5, 6]] [[0, 1], [2, 0]]).getD 0 [] =
      (List.range 2).foldr (fun p acc =>
        vecAdd ((SkipGram.forward [[(1 : ℚ), 2], [3, 4], [5, 6]]
          (([[0, 1], [2, 0]] : List (List Nat)).map
            (fun win => win.getD p 0))).getD 0 []) acc)
        (List.replicate ([[(1 : ℚ), 2], [3, 4], [5, 6]] : List (List ℚ)).length 0) :=
  ⟨⟨by decide, by decide, by decide, by decide⟩,
    cbow_eq_sum_skipgram [[(1 : ℚ), 2], [3, 4], [5, 6]] 2 2 [[0, 1], [2, 0]]
      (by decide) (by decide) (by decide) 0 (by decide)⟩

/-- Mutable parameter storage: each `nn.Parameter` tensor is a cell, and
layers hold references (cell indices) into the store, so that two layers
holding the same reference share the identical parameter object. -/
structure ParamStore where
  cells : List (List (List ℚ))

/-- `nn.Embedding(num_words, embed_dim)`: holds a reference to its weight. -/
structure EmbeddingLayer where
  ref : Nat

/-- `nn.Linear(embed_dim, num_words, bias=False)`: holds a reference to
its weight, and an optional bias vector (`none` models `bias=False`). -/
structure LinearLayer where
  ref : Nat
  bias : Option (List ℚ)

/-- `SharedNNLM` (src/code.py:404-439): an embedding layer and a
projection layer. -/
structure SharedNNLM where
  embedding : EmbeddingLayer
  projection : LinearLayer

def SharedNNLM.get_emb (m : SharedNNLM) : EmbeddingLayer := m.embedding

def SharedNNLM.get_proj (m : SharedNNLM) : LinearLayer := m.projection

/-- `SharedNNLM.bind_weights` (src/code.py:424-433): `proj.weight =
emb.weight` re-points the projection's weight at the embedding's
parameter object, i.e. at the very same store cell. -/
def SharedNNLM.bind_weights (m : SharedNNLM) : SharedNNLM :=
  { m with projection := { m.projection with ref := m.get_emb.ref } }

/-- `SharedNNLM.__init__` (src/code.py:405-422): allocate the embedding
weight (cell 0) and the projection weight (cell 1) with their random
initial values, then `bind_weights`. Returns the model and the store. -/
def SharedNNLM.init (embInit projInit : List (List ℚ)) :
    SharedNNLM × ParamStore :=
  (SharedNNLM.bind_weights
    { embedding := { ref := 0 }, projection := { ref := 1, bias := none } },
   { cells := [embInit, projInit] })

def ParamStore.read (s : ParamStore) (r : Nat) : List (List ℚ) :=
  s.cells.getD r []

/-- A weight update (e.g. one optimizer step's effect) applied to the
parameter at reference `r`: an arbitrary transformation of that cell. -/
def ParamStore.update (s : ParamStore) (r : Nat)
    (f : List (List ℚ) → List (List ℚ)) : ParamStore :=
  { cells := s.cells.mapIdx (fun i W => if i = r then f W else W) }

/-- A sequence of weight updates, each aimed at some reference. -/
def ParamStore.applyUpdates (s : ParamStore)
    (us : List (Nat × (List (List ℚ) → List (List ℚ)))) : ParamStore :=
  us.foldl (fun t u => t.update u.1 u.2) s

/-- `SkipGram.__init__` (src/code.py:447-460): build a `SharedNNLM` and
keep its embedding and projection layers. -/
structure SkipGramModel where
  nnlm : SharedNNLM
  emb : EmbeddingLayer
  proj : LinearLayer

def SkipGramModel.init (embInit projInit : List (List ℚ)) :
    SkipGramModel × ParamStore :=
  let ms := SharedNNLM.init embInit projInit
  ({ nnlm := ms.1, emb := ms.1.get_emb, proj := ms.1.get_proj }, ms.2)

/-- `CBOW.__init__` (src/code.py:474-487): build a `SharedNNLM` and keep
its embedding and projection layers. -/
structure CBOWModel where
  nnlm : SharedNNLM
  emb : EmbeddingLayer
  proj : LinearLayer

def CBOWModel.init (embInit projInit : List (List ℚ)) :
    CBOWModel × ParamStore :=
  let ms := SharedNNLM.init embInit projInit
  ({ nnlm := ms.1, emb := ms.1.get_emb, proj := ms.1.get_proj }, ms.2)

/-- C2: after construction the embedding weight and projection weight of
`SharedNNLM` are the identical stored parameter (equal references), so
after any sequence of weight updates — through either view — row `i` of
the weight read through the embedding equals row `i` read through the
projection; the projection carries no bias; and the same holds for the
layers kept by `SkipGram` and by `CBOW`. -/
theorem weight_tying (embInit projInit : List (List ℚ))
    (us : List (Nat × (List (List ℚ) → List (List ℚ)))) (i : Nat) :
    ((SharedNNLM.init embInit projInit).1.get_proj.ref =
      (SharedNNLM.init embInit projInit).1.get_emb.ref) ∧
    ((((SharedNNLM.init embInit projInit).2.applyUpdates us).read
        (SharedNNLM.init embInit projInit).1.get_emb.ref).getD i [] =
      (((SharedNNLM.init embInit projInit).2.applyUpdates us).read
        (SharedNNLM.init embInit projInit).1.get_proj.ref).getD i []) ∧
    ((SharedNNLM.init embInit projInit).1.get_proj.bias = none) ∧
    ((SkipGramModel.init embInit projInit).1.proj.ref =
      (SkipGramModel.init embInit projInit).1.emb.ref) ∧
    ((((SkipGramModel.init embInit projInit).2.applyUpdates us).read
        (SkipGramModel.init embInit projInit).1.emb.ref).getD i [] =
      (((SkipGramModel.init embInit projInit).2.applyUpdates us).read
        (SkipGramModel.init embInit projInit).1.proj.ref).getD i []) ∧
    ((SkipGramModel.init embInit projInit).1.proj.bias = none) ∧
    ((CBOWModel.init embInit projInit).1.proj.ref =
      (CBOWModel.init embInit projInit).1.emb.ref) ∧
    ((((CBOWModel.init embInit projInit).2.applyUpdates us).read
        (CBOWModel.init embInit projInit).1.emb.ref).getD i [] =
      (((CBOWModel.init embInit projInit).2.applyUpdates us).read
        (CBOWModel.init embInit projInit).1.proj.ref).getD i []) ∧
    ((CBOWModel.init embInit projInit).1.proj.bias = none) :=
  ⟨rfl, rfl, rfl, rfl, rfl, rfl, rfl, rfl, rfl⟩

/-- A loaded word-to-embedding table (`dict[str, np.array]`) as an
association list; `lookupEmb` models `word_to_embedding[w]`, returning
`none` where Python raises `KeyError`. -/
def Table : Type := List (String × List ℚ)

def lookupEmb (t : Table) (w : String) : Option (List ℚ) :=
  ((t : List (String × List ℚ)).find? (fun p => p.1 = w)).map (fun p => p.2)

/-- `project` (src/code.py:591-594): `scalar = dot(a,b)/dot(b,b)`,
`vector_projection = scalar * b`. No branch guards the division. -/
def project (a b : List ℚ) : ℚ × List ℚ :=
  let scalar := dotQ a b / dotQ b b
  (scalar, b.map (fun x => scalar * x))

/-- `cosine_similarity` (src/code.py:633-636):
`dot(a,b) / (norm_a * norm_b)`, parametric in the (irrational-valued)
`np.linalg.norm`. No branch guards the division. -/
def cosine_similarity (norm : List ℚ → ℚ) (a b : List ℚ) : ℚ :=
  dotQ a b / (norm a * norm b)

/-- Modelled from the spec (the reading asserted by claim C6): a `project`
variant that explicitly guards the zero-vector denominator, treating it as
a domain error. The source has no such branch. -/
def projectSpecGuarded (a b : List ℚ) : Option (ℚ × List ℚ) :=
  if dotQ b b = 0 then none else some (project a b)

/-- Modelled from the spec (the reading asserted by claim C6): a
`cosine_similarity` variant that explicitly guards zero vectors, treating
them as a domain error. The source has no such branch. -/
def cosineSimilaritySpecGuarded (norm : List ℚ → ℚ) (a b : List ℚ) :
    Option ℚ :=
  if norm a * norm b = 0 then none else some (cosine_similarity norm a b)

theorem dotQ_replicate_zero : ∀ (v : List ℚ) (n : Nat),
    dotQ v (List.replicate n 0) = 0
  | [], n => by simp [dotQ]
  | a :: v, 0 => by simp [dotQ]
  | a :: v, n + 1 => by
    simp only [List.replicate_succ, dotQ, List.zipWith_cons_cons, List.sum_cons,
      mul_zero, zero_add]
    exact dotQ_replicate_zero v n

/-- C6 counterexample: at `a = [1]`, `b = [0]` the code's `project` and
`cosine_similarity` perform the division and return a plain value (the
junk value 0 under the exact-arithmetic convention for division by zero,
where NumPy produces `nan` with a runtime warning), whereas the behaviour
asserted by the claim — an explicit guard raising a domain error — would
produce no value, as the spec-modelled guarded variants show. -/
theorem project_unguarded_cex :
    project [(1 : ℚ)] [0] = (0, [0]) ∧
    projectSpecGuarded [(1 : ℚ)] [0] = none ∧
    cosine_similarity sqNorm [(1 : ℚ)] [0] = 0 ∧
    cosineSimilaritySpecGuarded sqNorm [(1 : ℚ)] [0] = none := by
  refine ⟨?_, ?_, ?_, ?_⟩ <;>
    norm_num [project, projectSpecGuarded, cosine_similarity,
      cosineSimilaritySpecGuarded, dotQ, sqNorm]

/-- C6 (amended): `project` and `cosine_similarity` contain no zero-vector
guard: on a zero vector `b` they perform the division with a zero
denominator and return a plain (junk) value instead of signalling a
domain error. -/
theorem project_unguarded (a : List ℚ) (n : Nat) (norm : List ℚ → ℚ) :
    dotQ (List.replicate n 0) (List.replicate n 0) = 0 ∧
    project a (List.replicate n 0) = (0, List.replicate n 0) ∧
    cosine_similarity norm a (List.replicate n 0) = 0 := by
  have hz : dotQ a (List.replicate n 0) = 0 := dotQ_replicate_zero a n
  have hzz : dotQ (List.replicate n 0) (List.replicate n 0) = 0 :=
    dotQ_replicate_zero _ n
  refine ⟨hzz, ?_, ?_⟩
  · simp only [project, hz, hzz, zero_div]
    simp
  · simp only [cosine_similarity, hz, zero_div]

theorem dotQ_sub_smul : ∀ (a b : List ℚ), a.length = b.length → ∀ s : ℚ,
    dotQ (vecSub a (b.map (fun x => s * x))) b = dotQ a b - s * dotQ b b
  | [], [], _, s => by simp [dotQ, vecSub]
  | [], y :: b, h, s => by simp at h
  | x :: a, [], h, s => by simp at h
  | x :: a, y :: b, h, s => by
    have ih := dotQ_sub_smul a b (by simpa using h) s
    simp only [List.map_cons, vecSub, List.zipWith_cons_cons, dotQ,
      List.sum_cons] at ih ⊢
    rw [show (List.zipWith (fun x1 x2 => x1 * x2)
      (List.zipWith (fun x1 x2 => x1 - x2) a (List.map (fun x => s * x) b))
      b).sum = (List.zipWith (fun x1 x2 => x1 * x2) a b).sum -
        s * (List.zipWith (fun x1 x2 => x1 * x2) b b).sum from ih]
    ring

theorem residual_orthogonal (a b : List ℚ) (hab : a.length = b.length)
    (hb : dotQ b b ≠ 0) : dotQ (vecSub a (project a b).2) b = 0 := by
  simp only [project]
  rw [dotQ_sub_smul a b hab (dotQ a b / dotQ b b)]
  field_simp

/-- `debias_word_embedding` (src/code.py:681-689): look up the word's
embedding and subtract its vector projection onto the (flattened) gender
direction; the dict lookup can raise, modelled with `Option`. -/
def debias_word_embedding (word : String) (t : Table) (g : List ℚ) :
    Option (List ℚ) :=
  (lookupEmb t word).map (fun word_embed =>
    vecSub word_embed (project word_embed g).2)

theorem vecSub_replicate_zero : ∀ (v : List ℚ) (n : Nat), v.length = n →
    vecSub v (List.replicate n 0) = v
  | [], n, h => by simp [vecSub]
  | a :: v, n, h => by
    subst h
    simp only [List.length_cons, List.replicate_succ, vecSub,
      List.zipWith_cons_cons, sub_zero]
    have ih := vecSub_replicate_zero v v.length rfl
    simp only [vecSub] at ih
    rw [ih]

/-- C7: for non-zero `b` the residual `a - vector_projection` computed
from `project(a, b)` is orthogonal to `b`; consequently the vector
produced by `debias_word_embedding` has zero scalar projection and zero
vector projection onto the same flattened direction, so applying the
debiasing a second time with the same direction (from any table holding
the debiased vector for the word) returns it unchanged. -/
theorem debias_orthogonal (a b g dv : List ℚ) (t t2 : Table) (word : String)
    (hab : a.length = b.length) (hb : dotQ b b ≠ 0)
    (hw : lookupEmb t word = some a) (hag : a.length = g.length)
    (hg : dotQ g g ≠ 0)
    (hdv : debias_word_embedding word t g = some dv)
    (ht2 : lookupEmb t2 word = some dv) :
    dotQ (vecSub a (project a b).2) b = 0 ∧
    (project dv g).1 = 0 ∧
    (project dv g).2 = List.replicate g.length 0 ∧
    debias_word_embedding word t2 g = some dv := by
  have hdv' : dv = vecSub a (project a g).2 := by
    simp only [debias_word_embedding, hw, Option.map_some'] at hdv
    exact (Option.some.injEq _ _ ▸ hdv).symm
  have horth : dotQ dv g = 0 := by
    rw [hdv']
    exact residual_orthogonal a g hag hg
  have hscal : (project dv g).1 = 0 := by
    simp only [project, horth, zero_div]
  have hproj : (project dv g).2 = List.replicate g.length 0 := by
    simp only [project, horth, zero_div, zero_mul]
    exact List.map_const' g 0
  have hdvlen : dv.length = g.length := by
    rw [hdv']
    simp only [vecSub, project, List.length_zipWith, List.length_map]
    omega
  refine ⟨residual_orthogonal a b hab hb, hscal, hproj, ?_⟩
  simp only [debias_word_embedding, ht2, Option.map_some', hproj]
  rw [vecSub_replicate_zero dv g.length hdvlen]

/-- C7 witness at a concrete table, word, and directions. -/
theorem debias_orthogonal_witness :
    (([(1 : ℚ), 2] : List ℚ).length = ([1, 1] : List ℚ).length ∧
      dotQ [(1 : ℚ), 1] [1, 1] ≠ 0 ∧
      lookupEmb [("w", [(1 : ℚ), 2])] "w" = some [(1 : ℚ), 2] ∧
      ([(1 : ℚ), 2] : List ℚ).length = ([0, 1] : List ℚ).length ∧
      dotQ [(0 : ℚ), 1] [0, 1] ≠ 0 ∧
      debias_word_embedding "w" [("w", [(1 : ℚ), 2])] [0, 1] = some [1, 0] ∧
      lookupEmb [("w", [(1 : ℚ), 0])] "w" = some [(1 : ℚ), 0]) ∧
    (dotQ (vecSub [(1 : ℚ), 2] (project [(1 : ℚ), 2] [1, 1]).2) [1, 1] = 0 ∧
    (project [(1 : ℚ), 0] [0, 1]).1 = 0 ∧
    (project [(1 : ℚ), 0] [0, 1]).2 = List.replicate ([0, 1] : List ℚ).length 0 ∧
    debias_word_embedding "w" [("w", [(1 : ℚ), 0])] [0, 1] = some [1, 0]) :=
  ⟨⟨by norm_num, by norm_num [dotQ], by norm_num [lookupEmb, List.find?],
      by norm_num, by norm_num [dotQ],
      by norm_num [debias_word_embedding, lookupEmb, List.find?, project,
        dotQ, vecSub],
      by norm_num [lookupEmb, List.find?]⟩,
    debias_orthogonal [(1 : ℚ), 2] [1, 1] [0, 1] [1, 0]
      [("w", [(1 : ℚ), 2])] [("w", [(1 : ℚ), 0])] "w"
      (by norm_num) (by norm_num [dotQ]) (by norm_num [lookupEmb, List.find?])
      (by norm_num) (by norm_num [dotQ])
      (by norm_num [debias_word_embedding, lookupEmb, List.find?, project,
        dotQ, vecSub])
      (by norm_num [lookupEmb, List.find?])⟩

/-- Python `str.split()` (src/code.py:607 `profession.split()`) on a
character list: split on space runs, discarding empty pieces (the
professions are space-separated words). -/
def splitChars : List Char → List Char → List String
  | [], cur => if cur.isEmpty then [] else [String.mk cur.reverse]
  | c :: rest, cur =>
    if c = ' ' then
      if cur.isEmpty then splitChars rest []
      else String.mk cur.reverse :: splitChars rest []
    else splitChars rest (c :: cur)

def pySplit (s : String) : List String := splitChars s.toList []

/-- `np.mean(embeddings, axis=0)`: elementwise mean of the collected
equal-width embedding rows. -/
def vecMean (vs : List (List ℚ)) : List ℚ :=
  (sumRows vs).map (fun x => x / (vs.length : ℚ))

/-- The `for word in profession.split(): embeddings.append(...)` loop:
look up every constituent word, propagating the first `KeyError`. -/
def traverseLookup (t : Table) : List String → Except String (List (List ℚ))
  | [] => Except.ok []
  | w :: ws =>
    match lookupEmb t w with
    | none => Except.error w
    | some v =>
      match traverseLookup t ws with
      | Except.ok vs => Except.ok (v :: vs)
      | Except.error e => Except.error e

/-- One iteration of `compute_profession_embeddings` (src/code.py:597-611):
try the whole-profession lookup; on `KeyError` look up each constituent
word instead (a missing word propagates the error); return the mean of
the collected embeddings. -/
def professionEmbedding (t : Table) (p : String) : Except String (List ℚ) :=
  match lookupEmb t p with
  | some v => Except.ok (vecMean [v])
  | none =>
    match traverseLookup t (pySplit p) with
    | Except.ok vs => Except.ok (vecMean vs)
    | Except.error e => Except.error e

/-- `compute_profession_embeddings` (src/code.py:597-611): process the
professions in order, mapping each to its embedding; the first raised
`KeyError` aborts the loop. -/
def compute_profession_embeddings (t : Table) :
    List String → Except String (List (String × List ℚ))
  | [] => Except.ok []
  | p :: ps =>
    match professionEmbedding t p with
    | Except.error e => Except.error e
    | Except.ok v =>
      match compute_profession_embeddings t ps with
      | Except.ok rest => Except.ok ((p, v) :: rest)
      | Except.error e => Except.error e

theorem vecMean_singleton (v : List ℚ) : vecMean [v] = v := by
  simp [vecMean, sumRows]

theorem traverseLookup_error_iff (t : Table) : ∀ ws : List String,
    (∃ e, traverseLookup t ws = Except.error e) ↔
      ∃ w ∈ ws, lookupEmb t w = none
  | [] => by simp [traverseLookup]
  | w :: ws => by
    simp only [traverseLookup]
    rcases hw : lookupEmb t w with _ | v
    · constructor
      · intro _
        exact ⟨w, by simp, hw⟩
      · intro _
        exact ⟨w, rfl⟩
    · rcases hrec : traverseLookup t ws with e | vs
      · constructor
        · intro _
          rcases (traverseLookup_error_iff t ws).mp ⟨e, hrec⟩ with ⟨x, hx, hxe⟩
          exact ⟨x, by simp [hx], hxe⟩
        · intro _
          exact ⟨e, rfl⟩
      · constructor
        · rintro ⟨e, he⟩
          exact absurd he (by simp)
        · rintro ⟨x, hx, hxe⟩
          rcases List.mem_cons.mp hx with rfl | hx'
          · exact absurd hxe (by simp [hw])
          · rcases (traverseLookup_error_iff t ws).mpr ⟨x, hx', hxe⟩ with ⟨e, he⟩
            rw [he] at hrec
            exact absurd hrec (by simp)

theorem traverseLookup_ok (t : Table) : ∀ ws : List String,
    (∀ w ∈ ws, lookupEmb t w ≠ none) →
    traverseLookup t ws = Except.ok (ws.map (fun w => (lookupEmb t w).getD []))
  | [], _ => rfl
  | w :: ws, h => by
    simp only [traverseLookup]
    rcases hw : lookupEmb t w with _ | v
    · exact absurd hw (h w (by simp))
    · rw [traverseLookup_ok t ws (fun x hx => h x (by simp [hx]))]
      simp [hw]

theorem professionEmbedding_cases (t : Table) (p : String) :
    (∀ v, lookupEmb t p = some v → professionEmbedding t p = Except.ok v) ∧
    (lookupEmb t p = none → (∀ w ∈ pySplit p, lookupEmb t w ≠ none) →
      professionEmbedding t p = Except.ok
        (vecMean ((pySplit p).map (fun w => (lookupEmb t w).getD [])))) ∧
    ((∃ e, professionEmbedding t p = Except.error e) ↔
      (lookupEmb t p = none ∧ ∃ w ∈ pySplit p, lookupEmb t w = none)) := by
  refine ⟨?_, ?_, ?_⟩
  · intro v hv
    simp only [professionEmbedding, hv, vecMean_singleton]
  · intro hnone hall
    simp only [professionEmbedding, hnone]
    rw [traverseLookup_ok t _ hall]
  · rcases hp : lookupEmb t p with _ | v
    · simp only [professionEmbedding, hp]
      rcases htr : traverseLookup t (pySplit p) with e | vs
      · constructor
        · intro _
          exact ⟨trivial, (traverseLookup_error_iff t _).mp ⟨e, htr⟩⟩
        · intro _
          exact ⟨e, rfl⟩
      · constructor
        · rintro ⟨e, he⟩
          exact absurd he (by simp)
        · rintro ⟨_, hww⟩
          rcases (traverseLookup_error_iff t _).mpr hww with ⟨e, he⟩
          rw [he] at htr
          exact absurd htr (by simp)
    · simp only [professionEmbedding, hp]
      constructor
      · rintro ⟨e, he⟩
        exact absurd he (by simp)
      · rintro ⟨hc, _⟩
        exact absurd hc (by simp)

theorem compute_profession_error_iff (t : Table) : ∀ ps : List String,
    (∃ e, compute_profession_embeddings t ps = Except.error e) ↔
      ∃ p ∈ ps, lookupEmb t p = none ∧ ∃ w ∈ pySplit p, lookupEmb t w = none
  | [] => by simp [compute_profession_embeddings]
  | p :: ps => by
    simp only [compute_profession_embeddings]
    rcases hpe : professionEmbedding t p with e | v
    · constructor
      · intro _
        rcases (professionEmbedding_cases t p).2.2.mp ⟨e, hpe⟩ with ⟨h1, h2⟩
        exact ⟨p, by simp, h1, h2⟩
      · intro _
        exact ⟨e, rfl⟩
    · rcases hrec : compute_profession_embeddings t ps with e | rest
      · constructor
        · intro _
          rcases (compute_profession_error_iff t ps).mp ⟨e, hrec⟩ with ⟨x, hx, hxe⟩
          exact ⟨x, by simp [hx], hxe⟩
        · intro _
          exact ⟨e, rfl⟩
      · constructor
        · rintro ⟨e, he⟩
          exact absurd he (by simp)
        · rintro ⟨x, hx, hxnone, hxw⟩
          rcases List.mem_cons.mp hx with rfl | hx'
          · rcases (professionEmbedding_cases t x).2.2.mpr ⟨hxnone, hxw⟩
              with ⟨e, he⟩
            rw [he] at hpe
            exact absurd hpe (by simp)
          · rcases (compute_profession_error_iff t ps).mpr ⟨x, hx', hxnone, hxw⟩
              with ⟨e, he⟩
            rw [he] at hrec
            exact absurd hrec (by simp)

theorem compute_profession_ok (t : Table) : ∀ (ps : List String)
    (res : List (String × List ℚ)),
    compute_profession_embeddings t ps = Except.ok res →
      res = ps.map (fun p => (p, (lookupEmb t p).elim
        (vecMean ((pySplit p).map (fun w => (lookupEmb t w).getD [])))
        (fun v => v)))
  | [], res, h => by
    simpa [compute_profession_embeddings] using h.symm
  | p :: ps, res, h => by
    simp only [compute_profession_embeddings] at h
    rcases hpe : professionEmbedding t p with e | v
    · rw [hpe] at h
      exact absurd h (by simp)
    · rw [hpe] at h
      rcases hrec : compute_profession_embeddings t ps with e | rest
      · rw [hrec] at h
        exact absurd h (by simp)
      · rw [hrec] at h
        have hres : res = (p, v) :: rest := by
          have := h
          simp only [Except.ok.injEq] at this
          exact this.symm
        have hv : v = (lookupEmb t p).elim
            (vecMean ((pySplit p).map (fun w => (lookupEmb t w).getD [])))
            (fun v => v) := by
          rcases hp : lookupEmb t p with _ | v0
          · have hnoerr : ¬ ∃ e, professionEmbedding t p = Except.error e := by
              rintro ⟨e, he⟩
              rw [he] at hpe
              exact absurd hpe (by simp)
            have hall : ∀ w ∈ pySplit p, lookupEmb t w ≠ none := by
              intro w hwmem hwnone
              exact hnoerr ((professionEmbedding_cases t p).2.2.mpr
                ⟨hp, ⟨w, hwmem, hwnone⟩⟩)
            have := (professionEmbedding_cases t p).2.1 hp hall
            rw [this] at hpe
            simp only [Except.ok.injEq] at hpe
            simp [hpe]
          · have := (professionEmbedding_cases t p).1 v0 hp
            rw [this] at hpe
            simp only [Except.ok.injEq] at hpe
            simp [hpe]
        rw [hres, List.map_cons, ← hv,
          compute_profession_ok t ps rest hrec]

/-- C9: `compute_profession_embeddings` maps every profession present as a
whole in the table to its own embedding, maps every profession absent as a
whole to the mean of its constituent words' embeddings, and raises a
lookup error if and only if some profession is absent as a whole and also
has a constituent word absent from the table. -/
theorem profession_embeddings_spec (t : Table) (ps : List String) :
    ((∃ e, compute_profession_embeddings t ps = Except.error e) ↔
      ∃ p ∈ ps, lookupEmb t p = none ∧ ∃ w ∈ pySplit p, lookupEmb t w = none) ∧
    (∀ res, compute_profession_embeddings t ps = Except.ok res →
      res = ps.map (fun p => (p, (lookupEmb t p).elim
        (vecMean ((pySplit p).map (fun w => (lookupEmb t w).getD [])))
        (fun v => v)))) ∧
    (∀ p v, lookupEmb t p = some v → professionEmbedding t p = Except.ok v) :=
  ⟨compute_profession_error_iff t ps,
   fun res h => compute_profession_ok t ps res h,
   fun p v hv => (professionEmbedding_cases t p).1 v hv⟩

/-- C9 witness at a concrete table and profession list (one whole-phrase
hit, one multi-word fallback). -/
theorem profession_embeddings_spec_witness :
    ((∃ e, compute_profession_embeddings
        [("registered nurse", [(1 : ℚ), 2]), ("data", [5, 6]), ("analyst", [7, 8])]
        ["registered nurse", "data analyst"] = Except.error e) ↔
      ∃ p ∈ ["registered nurse", "data analyst"],
        lookupEmb [("registered nurse", [(1 : ℚ), 2]), ("data", [5, 6]),
          ("analyst", [7, 8])] p = none ∧
        ∃ w ∈ pySplit p,
          lookupEmb [("registered nurse", [(1 : ℚ), 2]), ("data", [5, 6]),
            ("analyst", [7, 8])] w = none) ∧
    (∀ res, compute_profession_embeddings
        [("registered nurse", [(1 : ℚ), 2]), ("data", [5, 6]), ("analyst", [7, 8])]
        ["registered nurse", "data analyst"] = Except.ok res →
      res = (["registered nurse", "data analyst"] : List String).map
        (fun p => (p,
          (lookupEmb [("registered nurse", [(1 : ℚ), 2]), ("data", [5, 6]),
            ("analyst", [7, 8])] p).elim
          (vecMean ((pySplit p).map (fun w =>
            (lookupEmb [("registered nurse", [(1 : ℚ), 2]), ("data", [5, 6]),
              ("analyst", [7, 8])] w).getD [])))
          (fun v => v)))) ∧
    (∀ p v, lookupEmb [("registered nurse", [(1 : ℚ), 2]), ("data", [5, 6]),
        ("analyst", [7, 8])] p = some v →
      professionEmbedding [("registered nurse", [(1 : ℚ), 2]), ("data", [5, 6]),
        ("analyst", [7, 8])] p = Except.ok v) :=
  profession_embeddings_spec
    [("registered nurse", [(1 : ℚ), 2]), ("data", [5, 6]), ("analyst", [7, 8])]
    ["registered nurse", "data analyst"]

/-- Mean of a Python list of floats, `np.mean(l)`. -/
def listMean (l : List ℚ) : ℚ := l.sum / (l.length : ℚ)

/-- `weat_association` (src/code.py:653-663): mean cosine similarity of
`w` with the attribute words of `A` minus mean cosine similarity with the
attribute words of `B` (parametric in the norm, like `cosine_similarity`). -/
def weat_association (norm : List ℚ → ℚ) (w : String) (A B : List String)
    (t : Table) : ℚ :=
  let w_embedding := (lookupEmb t w).getD []
  listMean (A.map (fun a =>
      cosine_similarity norm w_embedding ((lookupEmb t a).getD []))) -
    listMean (B.map (fun b =>
      cosine_similarity norm w_embedding ((lookupEmb t b).getD [])))

/-- `weat_differential_association` (src/code.py:666-678): sum of the
associations over `X` minus the sum over `Y`. The `weat_association_func`
argument is accepted but the body calls `weat_association` directly,
exactly as the source does. -/
def weat_differential_association (norm : List ℚ → ℚ) (X Y A B : List String)
    (t : Table)
    (weat_association_func : String → List String → List String → Table → ℚ) :
    ℚ :=
  (X.map (fun x => weat_association norm x A B t)).sum -
    (Y.map (fun y => weat_association norm y A B t)).sum

/-- `compute_partitions` (src/code.py:266-281):
`itertools.combinations(XY, len(XY) // 2)` — every size-`len(XY)//2`
combination (order-preserving subsequence) of `XY`. -/
def compute_partitions (XY : List String) : List (List String) :=
  List.sublistsLen (XY.length / 2) XY

/-- `p_value_permutation_test` (src/code.py:284-335): the true statistic
`s`, then for every enumerated combination `X_i` the complement
`Y_i = [w for w in XY if w not in X_i]` and its statistic `s_i`; the
result is the count of partitions with `s_i > s` over the total count. -/
def p_value_permutation_test (norm : List ℚ → ℚ) (X Y A B : List String)
    (t : Table) : ℚ :=
  let s := weat_differential_association norm X Y A B t
    (fun w A B t => weat_association norm w A B t)
  let XY := X ++ Y
  let partitions := compute_partitions XY
  ((partitions.filter (fun Xi =>
    decide (s < weat_differential_association norm Xi
      (XY.filter (fun w => decide (w ∉ Xi))) A B t
      (fun w A B t => weat_association norm w A B t)))).length : ℚ) /
    ((partitions.length : ℚ))

theorem sublist_filter_perm : ∀ {l s : List String}, List.Sublist s l →
    l.Nodup → (s ++ l.filter (fun w => decide (w ∉ s))).Perm l := by
  intro l s h
  induction h with
  | slnil =>
    intro _
    simp
  | @cons l₁ l₂ a h ih =>
    intro hnd
    have hna : a ∉ l₂ := (List.nodup_cons.mp hnd).1
    have hnd2 : l₂.Nodup := (List.nodup_cons.mp hnd).2
    have has : a ∉ l₁ := fun hmem => hna (h.subset hmem)
    rw [List.filter_cons_of_pos (by simpa using has)]
    exact List.perm_middle.trans ((ih hnd2).cons a)
  | @cons₂ l₁ l₂ a h ih =>
    intro hnd
    have hna : a ∉ l₂ := (List.nodup_cons.mp hnd).1
    have hnd2 : l₂.Nodup := (List.nodup_cons.mp hnd).2
    rw [List.filter_cons_of_neg (by simp)]
    have hcongr : l₂.filter (fun w => decide (w ∉ a :: l₁)) =
        l₂.filter (fun w => decide (w ∉ l₁)) := by
      refine List.filter_congr ?_
      intro w hw
      have hwa : w ≠ a := fun e => hna (e ▸ hw)
      simp [List.mem_cons, hwa]
    rw [hcongr, List.cons_append]
    exact (ih hnd2).cons a

/-- C1: with equal-length duplicate-free target lists whose words (and the
attribute words) are all present, `p_value_permutation_test` enumerates
every one of the `C(|X|+|Y|, |X|)` size-`|X|` combinations of `X ∪ Y`
(exactly 6 of them when `|X| = |Y| = 2`); each combination is paired with
its separately computed complement (together they form a permutation of
`X ++ Y`, the complement having size `|Y|`); and the returned p-value is
the fraction of enumerated partitions whose statistic strictly exceeds
the true statistic — a rational in `[0, 1]`. -/
theorem p_value_spec (norm : List ℚ → ℚ) (X Y A B : List String) (t : Table)
    (hlen : X.length = Y.length) (hnd : (X ++ Y).Nodup)
    (hpres : ∀ w ∈ X ++ Y ++ A ++ B, (lookupEmb t w).isSome = true) :
    (compute_partitions (X ++ Y)).length =
      Nat.choose (X.length + Y.length) X.length ∧
    (X.length = 2 → (compute_partitions (X ++ Y)).length = 6) ∧
    (∀ Xi ∈ compute_partitions (X ++ Y),
      Xi.length = X.length ∧
      ((X ++ Y).filter (fun w => decide (w ∉ Xi))).length = Y.length ∧
      (Xi ++ (X ++ Y).filter (fun w => decide (w ∉ Xi))).Perm (X ++ Y)) ∧
    p_value_permutation_test norm X Y A B t =
      (((compute_partitions (X ++ Y)).filter (fun Xi =>
        decide (weat_differential_association norm X Y A B t
            (fun w A B t => weat_association norm w A B t) <
          weat_differential_association norm Xi
            ((X ++ Y).filter (fun w => decide (w ∉ Xi))) A B t
            (fun w A B t => weat_association norm w A B t)))).length : ℚ) /
        (((compute_partitions (X ++ Y)).length : ℚ)) ∧
    0 ≤ p_value_permutation_test norm X Y A B t ∧
    p_value_permutation_test norm X Y A B t ≤ 1 := by
  have hlapp : (X ++ Y).length = X.length + Y.length := List.length_append X Y
  have hhalf : (X ++ Y).length / 2 = X.length := by
    rw [hlapp]
    omega
  have hchoose : (compute_partitions (X ++ Y)).length =
      Nat.choose (X.length + Y.length) X.length := by
    rw [compute_partitions, List.length_sublistsLen, hhalf, hlapp]
  have hpos : 0 < (compute_partitions (X ++ Y)).length := by
    rw [hchoose]
    exact Nat.choose_pos (by omega)
  have hfrac : p_value_permutation_test norm X Y A B t =
      (((compute_partitions (X ++ Y)).filter (fun Xi =>
        decide (weat_differential_association norm X Y A B t
            (fun w A B t => weat_association norm w A B t) <
          weat_differential_association norm Xi
            ((X ++ Y).filter (fun w => decide (w ∉ Xi))) A B t
            (fun w A B t => weat_association norm w A B t)))).length : ℚ) /
        (((compute_partitions (X ++ Y)).length : ℚ)) := rfl
  refine ⟨hchoose, ?_, ?_, hfrac, ?_, ?_⟩
  · intro hx2
    rw [hchoose, hx2, ← hlen, hx2]
    decide
  · intro Xi hXi
    rcases List.mem_sublistsLen.mp hXi with ⟨hsub, hXilen⟩
    have hXlen : Xi.length = X.length := by rw [hXilen, hhalf]
    have hperm := sublist_filter_perm hsub hnd
    refine ⟨hXlen, ?_, hperm⟩
    have := hperm.length_eq
    rw [List.length_append] at this
    omega
  · rw [hfrac]
    positivity
  · rw [hfrac]
    rw [div_le_one (by exact_mod_cast hpos)]
    exact_mod_cast List.length_filter_le _ _

/-- C1 witness at a concrete norm, target/attribute lists and table with
`|X| = |Y| = 2`. -/
theorem p_value_spec_witness :
    ((["x1", "x2"] : List String).length = (["y1", "y2"] : List String).length ∧
      ((["x1", "x2"] ++ ["y1", "y2"]) : List String).Nodup ∧
      (∀ w ∈ (["x1", "x2"] ++ ["y1", "y2"] ++ ["a1"] ++ ["b1"] : List String),
        (lookupEmb [("x1", [(1 : ℚ), 0]), ("x2", [0, 1]), ("y1", [1, 1]),
          ("y2", [2, 1]), ("a1", [1, 2]), ("b1", [3, 1])] w).isSome = true)) ∧
    ((compute_partitions (["x1", "x2"] ++ ["y1", "y2"])).length =
      Nat.choose ((["x1", "x2"] : List String).length +
        (["y1", "y2"] : List String).length) (["x1", "x2"] : List String).length ∧
    ((["x1", "x2"] : List String).length = 2 →
      (compute_partitions (["x1", "x2"] ++ ["y1", "y2"])).length = 6) ∧
    (∀ Xi ∈ compute_partitions (["x1", "x2"] ++ ["y1", "y2"]),
      Xi.length = (["x1", "x2"] : List String).length ∧
      (((["x1", "x2"] ++ ["y1", "y2"] : List String)).filter
        (fun w => decide (w ∉ Xi))).length = (["y1", "y2"] : List String).length ∧
      (Xi ++ ((["x1", "x2"] ++ ["y1", "y2"] : List String)).filter
        (fun w => decide (w ∉ Xi))).Perm (["x1", "x2"] ++ ["y1", "y2"])) ∧
    p_value_permutation_test sqNorm ["x1", "x2"] ["y1", "y2"] ["a1"] ["b1"]
        [("x1", [(1 : ℚ), 0]), ("x2", [0, 1]), ("y1", [1, 1]), ("y2", [2, 1]),
          ("a1", [1, 2]), ("b1", [3, 1])] =
      (((compute_partitions (["x1", "x2"] ++ ["y1", "y2"])).filter (fun Xi =>
        decide (weat_differential_association sqNorm ["x1", "x2"] ["y1", "y2"]
            ["a1"] ["b1"]
            [("x1", [(1 : ℚ), 0]), ("x2", [0, 1]), ("y1", [1, 1]), ("y2", [2, 1]),
              ("a1", [1, 2]), ("b1", [3, 1])]
            (fun w A B t => weat_association sqNorm w A B t) <
          weat_differential_association sqNorm Xi
            (((["x1", "x2"] ++ ["y1", "y2"] : List String)).filter
              (fun w => decide (w ∉ Xi))) ["a1"] ["b1"]
            [("x1", [(1 : ℚ), 0]), ("x2", [0, 1]), ("y1", [1, 1]), ("y2", [2, 1]),
              ("a1", [1, 2]), ("b1", [3, 1])]
            (fun w A B t => weat_association sqNorm w A B t)))).length : ℚ) /
        (((compute_partitions (["x1", "x2"] ++ ["y1", "y2"])).length : ℚ)) ∧
    0 ≤ p_value_permutation_test sqNorm ["x1", "x2"] ["y1", "y2"] ["a1"] ["b1"]
        [("x1", [(1 : ℚ), 0]), ("x2", [0, 1]), ("y1", [1, 1]), ("y2", [2, 1]),
          ("a1", [1, 2]), ("b1", [3, 1])] ∧
    p_value_permutation_test sqNorm ["x1", "x2"] ["y1", "y2"] ["a1"] ["b1"]
        [("x1", [(1 : ℚ), 0]), ("x2", [0, 1]), ("y1", [1, 1]), ("y2", [2, 1]),
          ("a1", [1, 2]), ("b1", [3, 1])] ≤ 1) :=
  ⟨⟨by decide, by decide, by decide⟩,
    p_value_spec sqNorm ["x1", "x2"] ["y1", "y2"] ["a1"] ["b1"]
      [("x1", [(1 : ℚ), 0]), ("x2", [0, 1]), ("y1", [1, 1]), ("y2", [2, 1]),
        ("a1", [1, 2]), ("b1", [3, 1])]
      (by decide) (by decide) (by decide)⟩

/-- The similarity-score data of one matrix row against the query: the
pair `(dot(query, row), dot(row, row))`. After `F.normalize`, the
`matmul` similarity of row `r` is `dot(q,r) / (‖r‖ * ‖q‖)` (a zero-norm
vector is normalized to the zero vector, giving similarity 0); `1/‖q‖` is
a common non-negative factor, so rows are ranked by the irrational value
`dot(q,r) / sqrt(dot(r,r))` that this pair of rationals stands for. -/
def simScore (q row : List ℚ) : ℚ × ℚ := (dotQ q row, sqNorm row)

/-- Sign of the value `p.1 / sqrt p.2` represented by a score pair
(0 for a zero-norm row, whose normalization is the zero vector). -/
def cosSign (p : ℚ × ℚ) : Int :=
  if p.2 = 0 then 0 else if 0 < p.1 then 1 else if p.1 < 0 then -1 else 0

/-- Exact decision of `p.1 / sqrt p.2 ≥ r.1 / sqrt r.2` (the descending
similarity comparison of `torch.topk`), by comparing signs first and then
cross-multiplied squares. -/
def cosGeB (p r : ℚ × ℚ) : Bool :=
  if cosSign r < cosSign p then true
  else if cosSign p < cosSign r then false
  else if cosSign p = 1 then decide (r.1 ^ 2 * p.2 ≤ p.1 ^ 2 * r.2)
  else if cosSign p = -1 then decide (p.1 ^ 2 * r.2 ≤ r.1 ^ 2 * p.2)
  else true

theorem cosSign_cases (d s : ℚ) (hs : 0 ≤ s) :
    (cosSign (d, s) = 0 ∧ (d : ℝ) / Real.sqrt (s : ℝ) = 0) ∨
    (cosSign (d, s) = 1 ∧ 0 < (d : ℝ) / Real.sqrt (s : ℝ) ∧ 0 < s ∧ 0 < d) ∨
    (cosSign (d, s) = -1 ∧ (d : ℝ) / Real.sqrt (s : ℝ) < 0 ∧ 0 < s ∧ d < 0) := by
  by_cases hs0 : s = 0
  · left
    subst hs0
    refine ⟨by simp [cosSign], ?_⟩
    simp
  · have hspos : 0 < s := lt_of_le_of_ne hs (Ne.symm hs0)
    have hsr : 0 < Real.sqrt (s : ℝ) := Real.sqrt_pos.mpr (by exact_mod_cast hspos)
    rcases lt_trichotomy (0 : ℚ) d with hd | hd | hd
    · right; left
      exact ⟨by simp [cosSign, hs0, hd],
        div_pos (by exact_mod_cast hd) hsr, hspos, hd⟩
    · left
      refine ⟨by simp [cosSign, hs0, ← hd], ?_⟩
      rw [← hd]
      simp
    · right; right
      exact ⟨by simp [cosSign, hs0, hd, lt_asymm hd],
        div_neg_of_neg_of_pos (by exact_mod_cast hd) hsr, hspos, hd⟩

theorem cosGeB_iff (d1 s1 d2 s2 : ℚ) (h1 : 0 ≤ s1) (h2 : 0 ≤ s2) :
    (cosGeB (d1, s1) (d2, s2) = true) ↔
      (d2 : ℝ) / Real.sqrt (s2 : ℝ) ≤ (d1 : ℝ) / Real.sqrt (s1 : ℝ) := by
  rcases cosSign_cases d1 s1 h1 with ⟨hσ1, hv1⟩ | ⟨hσ1, hv1, hs1, hd1⟩ |
      ⟨hσ1, hv1, hs1, hd1⟩ <;>
    rcases cosSign_cases d2 s2 h2 with ⟨hσ2, hv2⟩ | ⟨hσ2, hv2, hs2, hd2⟩ |
      ⟨hσ2, hv2, hs2, hd2⟩
  · simp only [cosGeB, hσ1, hσ2]
    norm_num
    linarith [hv1.le, hv2.le]
  · simp only [cosGeB, hσ1, hσ2]
    norm_num
    linarith
  · simp only [cosGeB, hσ1, hσ2]
    norm_num
    linarith
  · simp only [cosGeB, hσ1, hσ2]
    norm_num
    linarith
  · -- both values positive: compare cross-multiplied squares
    simp only [cosGeB, hσ1, hσ2]
    norm_num
    have hsr1 : 0 < Real.sqrt (s1 : ℝ) := Real.sqrt_pos.mpr (by exact_mod_cast hs1)
    have hsr2 : 0 < Real.sqrt (s2 : ℝ) := Real.sqrt_pos.mpr (by exact_mod_cast hs2)
    rw [div_le_div_iff hsr2 hsr1]
    have hA : (0 : ℝ) ≤ (d2 : ℝ) * Real.sqrt (s1 : ℝ) :=
      mul_nonneg (by exact_mod_cast hd2.le) (Real.sqrt_nonneg _)
    have hB : (0 : ℝ) ≤ (d1 : ℝ) * Real.sqrt (s2 : ℝ) :=
      mul_nonneg (by exact_mod_cast hd1.le) (Real.sqrt_nonneg _)
    rw [← pow_le_pow_iff_left hA hB (by norm_num : (2 : ℕ) ≠ 0)]
    rw [mul_pow, mul_pow, Real.sq_sqrt (by exact_mod_cast h1),
      Real.sq_sqrt (by exact_mod_cast h2)]
    constructor
    · intro h
      exact_mod_cast h
    · intro h
      exact_mod_cast h
  · simp only [cosGeB, hσ1, hσ2]
    norm_num
    linarith
  · simp only [cosGeB, hσ1, hσ2]
    norm_num
    linarith
  · simp only [cosGeB, hσ1, hσ2]
    norm_num
    linarith
  · -- both values negative: squares compare in the flipped order
    simp only [cosGeB, hσ1, hσ2]
    norm_num
    have hsr1 : 0 < Real.sqrt (s1 : ℝ) := Real.sqrt_pos.mpr (by exact_mod_cast hs1)
    have hsr2 : 0 < Real.sqrt (s2 : ℝ) := Real.sqrt_pos.mpr (by exact_mod_cast hs2)
    have hA : (0 : ℝ) ≤ -((d1 : ℝ) * Real.sqrt (s2 : ℝ)) := by
      have : (d1 : ℝ) ≤ 0 := by exact_mod_cast hd1.le
      nlinarith [Real.sqrt_nonneg ((s2 : ℚ) : ℝ)]
    have hB : (0 : ℝ) ≤ -((d2 : ℝ) * Real.sqrt (s1 : ℝ)) := by
      have : (d2 : ℝ) ≤ 0 := by exact_mod_cast hd2.le
      nlinarith [Real.sqrt_nonneg ((s1 : ℚ) : ℝ)]
    have hiff : ((d2 : ℝ) * Real.sqrt (s1 : ℝ) ≤ (d1 : ℝ) * Real.sqrt (s2 : ℝ)) ↔
        ((d1 : ℝ) ^ 2 * (s2 : ℝ) ≤ (d2 : ℝ) ^ 2 * (s1 : ℝ)) := by
      rw [← neg_le_neg_iff]
      rw [← pow_le_pow_iff_left hA hB (by norm_num : (2 : ℕ) ≠ 0)]
      rw [neg_sq, neg_sq, mul_pow, mul_pow, Real.sq_sqrt (by exact_mod_cast h2),
        Real.sq_sqrt (by exact_mod_cast h1)]
    rw [div_le_div_iff hsr2 hsr1, hiff]
    constructor
    · intro h
      exact_mod_cast h
    · intro h
      exact_mod_cast h

theorem sqNorm_nonneg : ∀ v : List ℚ, 0 ≤ sqNorm v
  | [] => le_refl 0
  | a :: v => by
    have ih := sqNorm_nonneg v
    simp only [sqNorm, dotQ, List.zipWith_cons_cons, List.sum_cons] at ih ⊢
    nlinarith [mul_self_nonneg a]

/-- Descending-similarity order on row indices for query `q` and matrix
`M`: the order in which `torch.topk` selects indices. -/
def simGe (q : List ℚ) (M : List (List ℚ)) (i j : Nat) : Prop :=
  cosGeB (simScore q (M.getD i [])) (simScore q (M.getD j [])) = true

instance simGeDecidable (q : List ℚ) (M : List (List ℚ)) :
    DecidableRel (simGe q M) := fun i j => instDecidableEqBool _ _

/-- All row indices ranked by descending cosine similarity;
`torch.topk(similarity, k+1).indices` is the first `k+1` entries of this
ranking (stable insertion sort, ties kept in index order). -/
def rankedIndices (q : List ℚ) (M : List (List ℚ)) : List Nat :=
  List.insertionSort (simGe q M) (List.range M.length)

/-- `compute_topk_similar` (src/code.py:495-510): L2-normalize the query
and every row, rank the rows by cosine similarity, take the `k + 1`
top-ranked indices (`torch.topk(similarity, k + 1)`), and return them
with the first entry skipped (`top_k.indices[1:]`). -/
def compute_topk_similar (q : List ℚ) (M : List (List ℚ)) (k : Nat) :
    List Nat :=
  ((rankedIndices q M).take (k + 1)).drop 1

/-- `word_analogy` (src/code.py:532-557): the top-k similar indices of
`emb(a) - emb(b) + emb(c)`, mapped back to words through
`index_to_word`. -/
def word_analogy (index_to_word : Nat → String) (W : List (List ℚ))
    (ia ib ic : Nat) (k : Nat) : List String :=
  let word_a_emb := W.getD ia []
  let word_b_emb := W.getD ib []
  let word_c_emb := W.getD ic []
  let analogy_emb := vecAdd (vecSub word_a_emb word_b_emb) word_c_emb
  (compute_topk_similar analogy_emb W k).map index_to_word

theorem simGe_total (q : List ℚ) (M : List (List ℚ)) (i j : Nat) :
    simGe q M i j ∨ simGe q M j i := by
  unfold simGe simScore
  rw [cosGeB_iff _ _ _ _ (sqNorm_nonneg _) (sqNorm_nonneg _),
    cosGeB_iff _ _ _ _ (sqNorm_nonneg _) (sqNorm_nonneg _)]
  exact le_total _ _

theorem simGe_trans (q : List ℚ) (M : List (List ℚ)) (i j k : Nat) :
    simGe q M i j → simGe q M j k → simGe q M i k := by
  unfold simGe simScore
  rw [cosGeB_iff _ _ _ _ (sqNorm_nonneg _) (sqNorm_nonneg _),
    cosGeB_iff _ _ _ _ (sqNorm_nonneg _) (sqNorm_nonneg _),
    cosGeB_iff _ _ _ _ (sqNorm_nonneg _) (sqNorm_nonneg _)]
  intro h1 h2
  exact le_trans h2 h1

theorem simGe_to_cosVal (q : List ℚ) (M : List (List ℚ)) {i j : Nat}
    (h : simGe q M i j) :
    (dotQ q (M.getD j []) : ℝ) /
        (Real.sqrt (sqNorm q) * Real.sqrt (sqNorm (M.getD j []))) ≤
      (dotQ q (M.getD i []) : ℝ) /
        (Real.sqrt (sqNorm q) * Real.sqrt (sqNorm (M.getD i []))) := by
  unfold simGe simScore at h
  rw [cosGeB_iff _ _ _ _ (sqNorm_nonneg _) (sqNorm_nonneg _)] at h
  have hfac : ∀ (d s : ℚ), (d : ℝ) /
      (Real.sqrt ((sqNorm q : ℚ) : ℝ) * Real.sqrt ((s : ℚ) : ℝ)) =
      ((d : ℝ) / Real.sqrt ((s : ℚ) : ℝ)) *
        (Real.sqrt ((sqNorm q : ℚ) : ℝ))⁻¹ := by
    intro d s
    rw [div_eq_mul_inv, mul_inv, div_eq_mul_inv]
    ring
  rw [hfac, hfac]
  exact mul_le_mul_of_nonneg_right h (inv_nonneg.mpr (Real.sqrt_nonneg _))

/-- C8: with `k + 1` at most the number of rows, `compute_topk_similar`
ranks all row indices by descending cosine similarity of the L2-normalized
query against the L2-normalized rows (the ranking is a permutation of all
row indices sorted by that similarity, so each of the `k+1` selected
indices has similarity at least that of every unselected index), and
returns exactly the `k` indices ranked 2nd through `(k+1)`-th, excluding
the single first-ranked index unconditionally; `word_analogy` applies the
same routine to `emb(a) - emb(b) + emb(c)` and maps the result to words. -/
theorem compute_topk_spec (q : List ℚ) (M : List (List ℚ)) (k : Nat)
    (index_to_word : Nat → String) (W : List (List ℚ)) (ia ib ic : Nat)
    (hk : k + 1 ≤ M.length) :
    (compute_topk_similar q M k).length = k ∧
    (∀ j, j < k → (compute_topk_similar q M k).getD j 0 =
      (rankedIndices q M).getD (j + 1) 0) ∧
    List.Sorted (fun i j =>
      (dotQ q (M.getD j []) : ℝ) /
          (Real.sqrt (sqNorm q) * Real.sqrt (sqNorm (M.getD j []))) ≤
        (dotQ q (M.getD i []) : ℝ) /
          (Real.sqrt (sqNorm q) * Real.sqrt (sqNorm (M.getD i []))))
      (rankedIndices q M) ∧
    (rankedIndices q M).Perm (List.range M.length) ∧
    (∀ i ∈ (rankedIndices q M).take (k + 1),
      ∀ j ∈ (rankedIndices q M).drop (k + 1),
      (dotQ q (M.getD j []) : ℝ) /
          (Real.sqrt (sqNorm q) * Real.sqrt (sqNorm (M.getD j []))) ≤
        (dotQ q (M.getD i []) : ℝ) /
          (Real.sqrt (sqNorm q) * Real.sqrt (sqNorm (M.getD i [])))) ∧
    (rankedIndices q M).getD 0 0 ∉ compute_topk_similar q M k ∧
    word_analogy index_to_word W ia ib ic k =
      (compute_topk_similar
        (vecAdd (vecSub (W.getD ia []) (W.getD ib [])) (W.getD ic [])) W
        k).map index_to_word := by
  haveI : IsTotal Nat (simGe q M) := ⟨simGe_total q M⟩
  haveI : IsTrans Nat (simGe q M) := ⟨fun a b c => simGe_trans q M a b c⟩
  have hlen : (rankedIndices q M).length = M.length := by
    rw [rankedIndices, List.length_insertionSort, List.length_range]
  have hsorted : List.Sorted (simGe q M) (rankedIndices q M) :=
    List.sorted_insertionSort (simGe q M) (List.range M.length)
  have hsortedR : List.Sorted (fun i j =>
      (dotQ q (M.getD j []) : ℝ) /
          (Real.sqrt (sqNorm q) * Real.sqrt (sqNorm (M.getD j []))) ≤
        (dotQ q (M.getD i []) : ℝ) /
          (Real.sqrt (sqNorm q) * Real.sqrt (sqNorm (M.getD i []))))
      (rankedIndices q M) :=
    List.Pairwise.imp (fun h => simGe_to_cosVal q M h) hsorted
  have hperm : (rankedIndices q M).Perm (List.range M.length) :=
    List.perm_insertionSort (simGe q M) (List.range M.length)
  have hnodup : (rankedIndices q M).Nodup :=
    hperm.nodup_iff.mpr (List.nodup_range M.length)
  have hclen : (compute_topk_similar q M k).length = k := by
    rw [compute_topk_similar, List.length_drop, List.length_take, hlen]
    omega
  refine ⟨hclen, ?_, hsortedR, hperm, ?_, ?_, rfl⟩
  · intro j hj
    have hjlt : j < (((rankedIndices q M).take (k + 1)).drop 1).length := by
      rw [List.length_drop, List.length_take, hlen]
      omega
    rw [compute_topk_similar, List.getD_eq_getElem _ _ hjlt, List.getElem_drop,
      List.getElem_take,
      List.getD_eq_getElem _ _ (show j + 1 < (rankedIndices q M).length by
        rw [hlen]; omega)]
    congr 1
    omega
  · intro i hi j hj
    have hp := hsortedR
    rw [List.Sorted, ← List.take_append_drop (k + 1) (rankedIndices q M),
      List.pairwise_append] at hp
    exact hp.2.2 i hi j hj
  · have h0 : 0 < (rankedIndices q M).length := by omega
    have hT : ((rankedIndices q M).take (k + 1)).Nodup :=
      (List.take_sublist (k + 1) (rankedIndices q M)).nodup hnodup
    have hTlen : 0 < ((rankedIndices q M).take (k + 1)).length := by
      rw [List.length_take, hlen]
      omega
    have hhead : (rankedIndices q M).getD 0 0 =
        ((rankedIndices q M).take (k + 1))[0] := by
      rw [List.getElem_take, List.getD_eq_getElem _ _ h0]
    rw [compute_topk_similar, hhead]
    have hdecomp : ((rankedIndices q M).take (k + 1)).drop 0 =
        ((rankedIndices q M).take (k + 1))[0] ::
          ((rankedIndices q M).take (k + 1)).drop 1 :=
      List.drop_eq_getElem_cons hTlen
    rw [List.drop_zero] at hdecomp
    intro hmem
    have := hT
    rw [hdecomp, List.nodup_cons] at this
    exact this.1 hmem

/-- C8 witness at a concrete query, matrix and `k`. -/
theorem compute_topk_spec_witness :
    (1 + 1 ≤ ([[(1 : ℚ), 0], [0, 1], [1, 1]] : List (List ℚ)).length) ∧
    ((compute_topk_similar [(1 : ℚ), 0] [[1, 0], [0, 1], [1, 1]] 1).length = 1 ∧
    (∀ j, j < 1 →
      (compute_topk_similar [(1 : ℚ), 0] [[1, 0], [0, 1], [1, 1]] 1).getD j 0 =
      (rankedIndices [(1 : ℚ), 0] [[1, 0], [0, 1], [1, 1]]).getD (j + 1) 0) ∧
    List.Sorted (fun i j =>
      (dotQ [(1 : ℚ), 0] (([[(1 : ℚ), 0], [0, 1], [1, 1]] :
          List (List ℚ)).getD j []) : ℝ) /
          (Real.sqrt (sqNorm [(1 : ℚ), 0]) *
            Real.sqrt (sqNorm (([[(1 : ℚ), 0], [0, 1], [1, 1]] :
              List (List ℚ)).getD j []))) ≤
        (dotQ [(1 : ℚ), 0] (([[(1 : ℚ), 0], [0, 1], [1, 1]] :
          List (List ℚ)).getD i []) : ℝ) /
          (Real.sqrt (sqNorm [(1 : ℚ), 0]) *
            Real.sqrt (sqNorm (([[(1 : ℚ), 0], [0, 1], [1, 1]] :
              List (List ℚ)).getD i []))))
      (rankedIndices [(1 : ℚ), 0] [[1, 0], [0, 1], [1, 1]]) ∧
    (rankedIndices [(1 : ℚ), 0] [[1, 0], [0, 1], [1, 1]]).Perm
      (List.range ([[(1 : ℚ), 0], [0, 1], [1, 1]] : List (List ℚ)).length) ∧
    (∀ i ∈ (rankedIndices [(1 : ℚ), 0] [[1, 0], [0, 1], [1, 1]]).take (1 + 1),
      ∀ j ∈ (rankedIndices [(1 : ℚ), 0] [[1, 0], [0, 1], [1, 1]]).drop (1 + 1),
      (dotQ [(1 : ℚ), 0] (([[(1 : ℚ), 0], [0, 1], [1, 1]] :
          List (List ℚ)).getD j []) : ℝ) /
          (Real.sqrt (sqNorm [(1 : ℚ), 0]) *
            Real.sqrt (sqNorm (([[(1 : ℚ), 0], [0, 1], [1, 1]] :
              List (List ℚ)).getD j []))) ≤
        (dotQ [(1 : ℚ), 0] (([[(1 : ℚ), 0], [0, 1], [1, 1]] :
          List (List ℚ)).getD i []) : ℝ) /
          (Real.sqrt (sqNorm [(1 : ℚ), 0]) *
            Real.sqrt (sqNorm (([[(1 : ℚ), 0], [0, 1], [1, 1]] :
              List (List ℚ)).getD i [])))) ∧
    (rankedIndices [(1 : ℚ), 0] [[1, 0], [0, 1], [1, 1]]).getD 0 0 ∉
      compute_topk_similar [(1 : ℚ), 0] [[1, 0], [0, 1], [1, 1]] 1 ∧
    word_analogy (fun _ => "") [[(1 : ℚ), 0], [0, 1], [1, 1]] 0 1 2 1 =
      (compute_topk_similar
        (vecAdd (vecSub (([[(1 : ℚ), 0], [0, 1], [1, 1]] :
            List (List ℚ)).getD 0 [])
          (([[(1 : ℚ), 0], [0, 1], [1, 1]] : List (List ℚ)).getD 1 []))
          (([[(1 : ℚ), 0], [0, 1], [1, 1]] : List (List ℚ)).getD 2 []))
        [[(1 : ℚ), 0], [0, 1], [1, 1]] 1).map (fun _ => "")) :=
  ⟨by decide,
    compute_topk_spec [(1 : ℚ), 0] [[1, 0], [0, 1], [1, 1]] 1 (fun _ => "")
      [[(1 : ℚ), 0], [0, 1], [1, 1]] 0 1 2 (by decide)⟩

end W2V
